import Mathlib

/-!
Shallow embedding of the funnel-stage consolidation logic of
`src/src/components/FunnelWidget.tsx` (repository forge-itsm-admin-frontend).

The embedding covers:
* the `FunnelStage` record (`name`, `count`, `percentage`, optional `dropoff`);
* `consolidateStages`: the stage-name resolution against the hard-coded
  `stageMapping` table (exact lookup, then first-match substring scan over the
  keys in declared order, then pass-through), the bucket reduction keyed by the
  resolved name (keep the higher count, first seen wins on ties), the sort by
  `percentage` descending, and the drop-off recomputation;
* the supplementary display computations of the widget body:
  `getStageConversionRate`, `getStageChange` and the inline drop-off rate.
  Divisions are embedded through `cdiv`, which returns `none` exactly when the
  denominator is zero, so "a division by zero is performed" is observable as a
  `none` result;
* a heap-passing variant `consolidateStagesRef` that tracks object identity
  (addresses into a heap of `FunnelStage` records), used to state that the
  function never mutates the caller's records and returns only fresh records.

Numbers: `count` is embedded as `Int` (JS numbers used as integral counts;
differences may be negative), `percentage` as `ℚ` (JS floating-point
percentages; only ordering, subtraction and division are used, all exact on
the rationals for the properties considered here).
-/

namespace FunnelSpec

/-- FunnelStage record of FunnelWidget.tsx: `name`, `count`, `percentage`,
optional `dropoff`. -/
structure FunnelStage where
  name : String
  count : Int
  percentage : ℚ
  dropoff : Option Int
deriving Repr, DecidableEq, Inhabited

/-- The hard-coded `stageMapping` table of `consolidateStages`, as the ordered
list of its entries (JS object literals preserve string-key insertion order,
which is the order `Object.entries` iterates). -/
def stageMapping : List (String × String) :=
  [("Button Clicks", "Button Clicks"),
   ("Started", "Plan Selected"),
   ("Plan Selected", "Plan Selected"),
   ("Account Created", "Account Setup"),
   ("Company Info", "Account Setup"),
   ("Stripe Redirect", "Stripe Checkout"),
   ("Provisioned", "Provisioned")]

/-- Contiguous-substring test on character lists: `subIn sub l` holds iff
`sub` occurs contiguously inside `l` (the empty list occurs in anything). -/
def subIn (sub : List Char) : List Char → Bool
  | [] => sub.isEmpty
  | c :: t => sub.isPrefixOf (c :: t) || subIn sub t

/-- Embedding of JavaScript `s.includes(sub)`: contiguous substring test,
case-sensitive, no trimming. -/
def jsIncludes (s sub : String) : Bool := subIn sub.data s.data

/-- Exact lookup `stageMapping[stage.name]` (step 1 of the matching). -/
def lookupExact (n : String) : Option String :=
  (stageMapping.find? (fun p => decide (p.1 = n))).map (fun p => p.2)

/-- Substring scan over the mapping keys in declared order (step 2 of the
matching): first key where the raw name contains the key or the key contains
the raw name. -/
def lookupFuzzy (n : String) : Option String :=
  (stageMapping.find? (fun p => jsIncludes n p.1 || jsIncludes p.1 n)).map (fun p => p.2)

/-- The `mappedName` variable of `consolidateStages`: exact lookup, falling
back to the substring scan. `none` means no mapping matched. -/
def mappedName (n : String) : Option String :=
  match lookupExact n with
  | some v => some v
  | none => lookupFuzzy n

/-- The `newName` computed for a raw stage name: the mapped canonical name, or
the raw name itself when no mapping matched (`mappedName || stage.name`; every
mapping value is a nonempty string, so `||` agrees with `getD`). -/
def resolveName (n : String) : String := (mappedName n).getD n

/-- One step of the `stages.forEach` bucket-reduction loop: the `consolidated`
record is embedded as an insertion-ordered association list. An existing
bucket is overwritten only on a strictly greater count; a new bucket is
appended (JS object keys keep insertion order). The stored record is the
spread copy `{ ...stage, name: newName }`. -/
def upsert (acc : List (String × FunnelStage)) (stage : FunnelStage) :
    List (String × FunnelStage) :=
  match acc.find? (fun p => decide (p.1 = resolveName stage.name)) with
  | some e =>
    if stage.count > e.2.count then
      acc.map (fun p =>
        if p.1 = resolveName stage.name then
          (resolveName stage.name, { stage with name := resolveName stage.name })
        else p)
    else acc
  | none => acc ++ [(resolveName stage.name, { stage with name := resolveName stage.name })]

/-- The `consolidated` record after the whole `forEach` loop. -/
def consolidatedMap (stages : List FunnelStage) : List (String × FunnelStage) :=
  stages.foldl upsert []

/-- Ordering used by `.sort((a, b) => b.percentage - a.percentage)`:
`percGe a b` holds iff `a`'s percentage is at least `b`'s. -/
def percGe (a b : FunnelStage) : Prop := b.percentage ≤ a.percentage

instance : DecidableRel percGe :=
  fun a b => inferInstanceAs (Decidable (b.percentage ≤ a.percentage))

instance : IsTotal FunnelStage percGe := ⟨fun a b => le_total b.percentage a.percentage⟩

instance : IsTrans FunnelStage percGe := ⟨fun _ _ _ h1 h2 => le_trans h2 h1⟩

/-- Embedding of `Object.values(consolidated).sort((a, b) => b.percentage -
a.percentage)`: a stable sort into non-increasing percentage order (JS `sort`
is stable, and any stable sort computes the same list). -/
def sortByPercentage (l : List FunnelStage) : List FunnelStage :=
  List.insertionSort percGe l

/-- Tail of the drop-off recomputation loop: each stage at index `i > 0` gets
`dropoff = result[i-1].count - result[i].count`, carried here as `prev`. -/
def setDropoffsFrom (prev : Int) : List FunnelStage → List FunnelStage
  | [] => []
  | s :: rest => { s with dropoff := some (prev - s.count) } :: setDropoffsFrom s.count rest

/-- The `result.forEach` drop-off recomputation: index 0 gets `dropoff = 0`,
later indices get the count difference to the previous entry. -/
def recomputeDropoffs : List FunnelStage → List FunnelStage
  | [] => []
  | first :: rest => { first with dropoff := some 0 } :: setDropoffsFrom first.count rest

/-- The full `consolidateStages` function of FunnelWidget.tsx. -/
def consolidateStages (stages : List FunnelStage) : List FunnelStage :=
  recomputeDropoffs (sortByPercentage ((consolidatedMap stages).map (fun p => p.2)))

/-- Checked division: `none` exactly when the denominator is zero, i.e. when
the corresponding JS expression divides by zero. -/
def cdiv (a b : ℚ) : Option ℚ := if b = 0 then none else some (a / b)

/-- Embedding of the widget's `getStageConversionRate`: returns 100 for a
negative previous index, otherwise divides the current count by the previous
stage's count, with the zero-count branch explicitly returning 0. An
out-of-range index (never used by the widget) yields `none`. -/
def getStageConversionRate (consolidatedStages : List FunnelStage)
    (currentStage : FunnelStage) (prevStageIndex : Int) : Option ℚ :=
  if prevStageIndex < 0 then some 100
  else
    match consolidatedStages[prevStageIndex.toNat]? with
    | none => none
    | some prevStage =>
      if prevStage.count > 0 then
        (cdiv (currentStage.count : ℚ) (prevStage.count : ℚ)).map (fun q => q * 100)
      else some 0

/-- Embedding of the widget's `getStageChange`: the inner `Option` is the JS
`null` result (no previous snapshot, or no stage of the same canonical name in
it); the outer `Option` is `none` exactly when the division
`(current.count - previous.count) / previous.count` divides by zero. -/
def getStageChange (previousConsolidated : Option (List FunnelStage))
    (current : FunnelStage) : Option (Option (ℚ × Bool)) :=
  match previousConsolidated with
  | none => some none
  | some prevList =>
    match prevList.find? (fun s => decide (s.name = current.name)) with
    | none => some none
    | some previous =>
      (cdiv ((current.count : ℚ) - (previous.count : ℚ)) (previous.count : ℚ)).map
        (fun q => some (|q * 100|, decide (q * 100 > 0)))

/-- Embedding of the widget body's inline drop-off rate: `dropoffCount` is
`stage.dropoff || 0` and the division is guarded by `stage.count > 0`. -/
def dropoffRate (stage : FunnelStage) : Option ℚ :=
  let dropoffCount : Int := stage.dropoff.getD 0
  if stage.count > 0 then (cdiv (dropoffCount : ℚ) (stage.count : ℚ)).map (fun q => q * 100)
  else some 0

/-- The five canonical bucket names (the values of `stageMapping`, also the
keys of the `STAGE_BENCHMARKS` table). -/
def canonicalVocabulary : List String :=
  ["Button Clicks", "Plan Selected", "Account Setup", "Stripe Checkout", "Provisioned"]

/-- Modelled from the spec (section 4.1, matching algorithm): step 1 exact
lookup in the mapping table, step 2 first key in declared order with substring
containment either way, step 3 pass-through. Stated independently of
`resolveName` (association-list `lookup`, `filter`/`head?` scan) so that the
agreement theorem compares the code's resolution with the spec's words. -/
def resolveNameSpec (n : String) : String :=
  match stageMapping.lookup n with
  | some v => v
  | none =>
    match (stageMapping.filter (fun p => jsIncludes n p.1 || jsIncludes p.1 n)).head? with
    | some p => p.2
    | none => n

/-- Raw input stages that resolve into the canonical bucket `k`, in input
order (used to state the bucket-reduction claim). -/
def contributors (stages : List FunnelStage) (k : String) : List FunnelStage :=
  stages.filter (fun s => decide (resolveName s.name = k))

/-- Modelled from the spec (bucket reduction): left-to-right scan keeping the
current best, overwriting only on a strictly greater count (highest count
wins, first seen wins on ties). -/
def pickWinner (c : FunnelStage) (cs : List FunnelStage) : FunnelStage :=
  cs.foldl (fun best s => if s.count > best.count then s else best) c

/-! Heap-passing variant used to express the no-mutation / fresh-objects
property: records live in a heap (a list of `FunnelStage`, addresses are
indices, allocation appends at the end), the input is a list of addresses, and
the result is the final heap together with the addresses of the returned
records. Every step mirrors the JS object operations: `{ ...stage, name }`
allocates a fresh record, `stage.dropoff = x` writes through an address. -/

/-- Heap of stage records; an address is an index, allocation appends. -/
abbrev Heap := List FunnelStage

/-- Dereference an address (out-of-range reads give the default record; the
widget never produces them). -/
def readH (h : Heap) (a : Nat) : FunnelStage := h[a]?.getD default

/-- Overwrite the record at an address. -/
def writeH (h : Heap) (a : Nat) (v : FunnelStage) : Heap := h.set a v

/-- Allocate a fresh record, returning the new heap and its address. -/
def allocH (h : Heap) (v : FunnelStage) : Heap × Nat := (h ++ [v], h.length)

/-- Heap-passing version of `upsert`: the `consolidated` record maps resolved
names to addresses of the freshly allocated `{ ...stage, name: newName }`
copies. -/
def upsertRef (st : Heap × List (String × Nat)) (a : Nat) : Heap × List (String × Nat) :=
  match st.2.find? (fun p => decide (p.1 = resolveName (readH st.1 a).name)) with
  | some e =>
    if (readH st.1 a).count > (readH st.1 e.2).count then
      ((allocH st.1 { readH st.1 a with name := resolveName (readH st.1 a).name }).1,
       st.2.map (fun p =>
         if p.1 = resolveName (readH st.1 a).name then
           (resolveName (readH st.1 a).name,
            (allocH st.1 { readH st.1 a with name := resolveName (readH st.1 a).name }).2)
         else p))
    else st
  | none =>
    ((allocH st.1 { readH st.1 a with name := resolveName (readH st.1 a).name }).1,
     st.2 ++ [(resolveName (readH st.1 a).name,
               (allocH st.1 { readH st.1 a with name := resolveName (readH st.1 a).name }).2)])

/-- Percentage order on addresses, reading through the heap (the comparator of
the `.sort` call closes over the object references). -/
def addrPercGe (h : Heap) (x y : Nat) : Prop :=
  (readH h y).percentage ≤ (readH h x).percentage

instance (h : Heap) : DecidableRel (addrPercGe h) :=
  fun x y => inferInstanceAs (Decidable ((readH h y).percentage ≤ (readH h x).percentage))

/-- Heap-passing version of the drop-off recomputation loop for indices
`i > 0`: mutates `stage.dropoff` through each address in turn, reading the
previous record's count through the heap. -/
def setDropoffsRefFrom (h : Heap) (prevAddr : Nat) : List Nat → Heap
  | [] => h
  | a :: t =>
    let s := readH h a
    let h2 := writeH h a { s with dropoff := some ((readH h prevAddr).count - s.count) }
    setDropoffsRefFrom h2 a t

/-- Heap-passing version of the full `result.forEach` drop-off loop. -/
def setDropoffsRef (h : Heap) : List Nat → Heap
  | [] => h
  | a0 :: rest =>
    let s0 := readH h a0
    setDropoffsRefFrom (writeH h a0 { s0 with dropoff := some 0 }) a0 rest

/-- Heap-passing version of `consolidateStages`: fold the bucket reduction
over the input addresses, sort the bucket addresses by percentage, then
rewrite the drop-off fields in place through the addresses. -/
def consolidateStagesRef (h : Heap) (input : List Nat) : Heap × List Nat :=
  let st := input.foldl upsertRef (h, [])
  let addrs := st.2.map (fun p => p.2)
  let sorted := List.insertionSort (addrPercGe st.1) addrs
  (setDropoffsRef st.1 sorted, sorted)

/-- Sample input of the spec's Scenario A. -/
def sampleStages : List FunnelStage :=
  [⟨"Button Clicks", 100, 100, none⟩,
   ⟨"Started", 80, 80, none⟩,
   ⟨"Plan Selected", 75, 75, none⟩,
   ⟨"Provisioned", 40, 40, none⟩]

example : consolidateStages sampleStages =
    [⟨"Button Clicks", 100, 100, some 0⟩,
     ⟨"Plan Selected", 80, 80, some 20⟩,
     ⟨"Provisioned", 40, 40, some 40⟩] := by decide

example : consolidateStages [⟨"Custom Step", 10, 10, none⟩] =
    [⟨"Custom Step", 10, 10, some 0⟩] := by decide

example : resolveName "Stripe Redirect Page" = "Stripe Checkout" := by decide

example : resolveName "" = "Button Clicks" := by decide

/-! Generic list helper. -/

theorem find?_eq_head_filter {α : Type} (p : α → Bool) :
    ∀ l : List α, l.find? p = (l.filter p).head? := by
  intro l
  induction l with
  | nil => rfl
  | cons a t ih =>
    by_cases h : p a = true
    · rw [List.find?_cons_of_pos _ h, List.filter_cons_of_pos h, List.head?_cons]
    · rw [List.find?_cons_of_neg _ h, List.filter_cons_of_neg h, ih]

/-! Facts about the name resolution. -/

theorem mappedName_mem_values {n v : String} (h : mappedName n = some v) :
    v ∈ stageMapping.map (fun p => p.2) := by
  unfold mappedName at h
  rcases he : lookupExact n with _ | w
  · rw [he] at h
    unfold lookupFuzzy at h
    rcases hf : stageMapping.find? (fun p => jsIncludes n p.1 || jsIncludes p.1 n) with _ | q
    · rw [hf] at h; exact absurd h (by simp)
    · rw [hf] at h
      have hq : q.2 = v := by simpa using h
      exact hq ▸ List.mem_map_of_mem _ (List.mem_of_find?_eq_some hf)
  · rw [he] at h
    have hwv : w = v := by simpa using h
    subst hwv
    unfold lookupExact at he
    rcases hf : stageMapping.find? (fun p => decide (p.1 = n)) with _ | q
    · rw [hf] at he; exact absurd he (by simp)
    · rw [hf] at he
      have hq : q.2 = w := by simpa using he
      exact hq ▸ List.mem_map_of_mem _ (List.mem_of_find?_eq_some hf)

theorem values_sub_vocab : ∀ v ∈ stageMapping.map (fun p => p.2), v ∈ canonicalVocabulary := by
  decide

theorem vocab_resolve_self : ∀ v ∈ canonicalVocabulary, resolveName v = v := by decide

theorem resolveName_cases (n : String) :
    (mappedName n = none ∧ resolveName n = n) ∨
      ∃ v, mappedName n = some v ∧ resolveName n = v ∧ v ∈ canonicalVocabulary := by
  rcases h : mappedName n with _ | v
  · exact Or.inl ⟨rfl, by simp [resolveName, h]⟩
  · exact Or.inr ⟨v, rfl, by simp [resolveName, h],
      values_sub_vocab v (mappedName_mem_values h)⟩

theorem resolveName_idem (n : String) : resolveName (resolveName n) = resolveName n := by
  rcases resolveName_cases n with ⟨_, h⟩ | ⟨v, _, h, hv⟩
  · rw [h, h]
  · rw [h, vocab_resolve_self v hv]

/-! Facts about the bucket-reduction fold. -/

theorem consolidatedMap_append (l : List FunnelStage) (s : FunnelStage) :
    consolidatedMap (l ++ [s]) = upsert (consolidatedMap l) s := by
  simp [consolidatedMap, List.foldl_append]

theorem upsert_fst_comm (n : String) (x : FunnelStage) (p : String × FunnelStage) :
    (if p.1 = n then (n, x) else p).1 = p.1 := by
  split
  · simp [*]
  · rfl

theorem upsert_keys (acc : List (String × FunnelStage)) (s : FunnelStage) :
    (upsert acc s).map (fun p => p.1) =
      if resolveName s.name ∈ acc.map (fun p => p.1) then acc.map (fun p => p.1)
      else acc.map (fun p => p.1) ++ [resolveName s.name] := by
  rcases hf : acc.find? (fun p => decide (p.1 = resolveName s.name)) with _ | e
  · have hno := List.find?_eq_none.1 hf
    simp only [upsert, hf]
    rw [if_neg]
    · simp
    · intro hmem
      rcases List.mem_map.1 hmem with ⟨p, hp, hp1⟩
      exact (hno p hp) (by simp [hp1])
  · have he1 : e.1 = resolveName s.name := by
      have := List.find?_some hf
      simpa using this
    have hmem : resolveName s.name ∈ acc.map (fun p => p.1) :=
      he1 ▸ List.mem_map_of_mem _ (List.mem_of_find?_eq_some hf)
    simp only [upsert, hf]
    rw [if_pos hmem]
    split
    · rw [List.map_map]
      exact List.map_congr_left (fun p _ => upsert_fst_comm _ _ p)
    · rfl

theorem keys_nodup (l : List FunnelStage) :
    ((consolidatedMap l).map (fun p => p.1)).Nodup := by
  induction l using List.reverseRecOn with
  | nil => simp [consolidatedMap]
  | append_singleton t s ih =>
    rw [consolidatedMap_append, upsert_keys]
    split
    · exact ih
    · rw [← List.concat_eq_append]
      exact List.Nodup.concat (by assumption) ih

theorem mem_consolidatedMap {l : List FunnelStage} {p : String × FunnelStage}
    (hp : p ∈ consolidatedMap l) :
    p.2.name = p.1 ∧ ∃ s ∈ l, resolveName s.name = p.1 ∧ p.2 = { s with name := p.1 } := by
  induction l using List.reverseRecOn with
  | nil => simp [consolidatedMap] at hp
  | append_singleton t s ih =>
    rw [consolidatedMap_append] at hp
    rcases hf : (consolidatedMap t).find?
        (fun p => decide (p.1 = resolveName s.name)) with _ | e <;>
      simp only [upsert, hf] at hp
    · rcases List.mem_append.1 hp with h | h
      · rcases ih h with ⟨h1, w, hw, hr, he⟩
        exact ⟨h1, w, List.mem_append_left _ hw, hr, he⟩
      · simp only [List.mem_singleton] at h
        subst h
        exact ⟨rfl, s, List.mem_append_right _ (List.mem_singleton_self s), rfl, rfl⟩
    · split at hp
      · rcases List.mem_map.1 hp with ⟨q, hq, hfq⟩
        by_cases hq1 : q.1 = resolveName s.name
        · rw [if_pos hq1] at hfq
          subst hfq
          exact ⟨rfl, s, List.mem_append_right _ (List.mem_singleton_self s), rfl, rfl⟩
        · rw [if_neg hq1] at hfq
          subst hfq
          rcases ih hq with ⟨h1, w, hw, hr, he⟩
          exact ⟨h1, w, List.mem_append_left _ hw, hr, he⟩
      · rcases ih hp with ⟨h1, w, hw, hr, he⟩
        exact ⟨h1, w, List.mem_append_left _ hw, hr, he⟩

/-! Characterization of the surviving bucket entry (used for the
bucket-reduction claim). `lookupC m k` is the first entry of the consolidated
association list whose key is `k`. -/

def lookupC (m : List (String × FunnelStage)) (k : String) : Option (String × FunnelStage) :=
  m.find? (fun p => decide (p.1 = k))

theorem upsert_pred_comp (s : FunnelStage) (k : String) :
    ((fun p : String × FunnelStage => decide (p.1 = k)) ∘
      (fun p => if p.1 = resolveName s.name then
        (resolveName s.name, { s with name := resolveName s.name }) else p)) =
      (fun p : String × FunnelStage => decide (p.1 = k)) := by
  funext p
  simp only [Function.comp]
  rw [upsert_fst_comm]

theorem lookupC_upsert_ne {k : String} {s : FunnelStage}
    (acc : List (String × FunnelStage)) (hne : k ≠ resolveName s.name) :
    lookupC (upsert acc s) k = lookupC acc k := by
  rcases hf : acc.find? (fun p => decide (p.1 = resolveName s.name)) with _ | e <;>
    simp only [upsert, hf]
  · unfold lookupC
    rw [List.find?_append]
    have h2 : List.find? (fun p => decide (p.1 = k))
        [(resolveName s.name, { s with name := resolveName s.name })] = none := by
      simp [Ne.symm hne]
    rw [h2, Option.or_none]
  · split
    · unfold lookupC
      rw [List.find?_map, upsert_pred_comp]
      rcases hk : List.find? (fun p : String × FunnelStage => decide (p.1 = k)) acc with _ | q
      · rfl
      · have hq1 : q.1 = k := by simpa using List.find?_some hk
        have hfix : (if q.1 = resolveName s.name then
            (resolveName s.name, { s with name := resolveName s.name }) else q) = q := by
          rw [if_neg (by rw [hq1]; exact hne)]
        simp [hfix]
    · rfl

theorem lookupC_upsert_self_none {s : FunnelStage} {acc : List (String × FunnelStage)}
    (hf : lookupC acc (resolveName s.name) = none) :
    lookupC (upsert acc s) (resolveName s.name) =
      some (resolveName s.name, { s with name := resolveName s.name }) := by
  unfold lookupC at hf
  simp only [upsert, hf]
  unfold lookupC
  rw [List.find?_append, hf]
  simp

theorem lookupC_upsert_self_lt {s : FunnelStage} {acc : List (String × FunnelStage)}
    {e : String × FunnelStage} (hf : lookupC acc (resolveName s.name) = some e)
    (hcnt : s.count > e.2.count) :
    lookupC (upsert acc s) (resolveName s.name) =
      some (resolveName s.name, { s with name := resolveName s.name }) := by
  unfold lookupC at hf
  simp only [upsert, hf]
  rw [if_pos hcnt]
  unfold lookupC
  rw [List.find?_map, upsert_pred_comp, hf, Option.map_some']
  have he1 : e.1 = resolveName s.name := by simpa using List.find?_some hf
  rw [if_pos he1]

theorem lookupC_upsert_self_ge {s : FunnelStage} {acc : List (String × FunnelStage)}
    {e : String × FunnelStage} (hf : lookupC acc (resolveName s.name) = some e)
    (hcnt : ¬s.count > e.2.count) :
    lookupC (upsert acc s) (resolveName s.name) = some e := by
  unfold lookupC at hf
  simp only [upsert, hf]
  rw [if_neg hcnt]
  exact hf

theorem contributors_append (l : List FunnelStage) (s : FunnelStage) (k : String) :
    contributors (l ++ [s]) k =
      contributors l k ++ if resolveName s.name = k then [s] else [] := by
  unfold contributors
  rw [List.filter_append]
  congr 1
  by_cases h : resolveName s.name = k
  · simp [h]
  · simp [h]

theorem pickWinner_append (c : FunnelStage) (cs : List FunnelStage) (s : FunnelStage) :
    pickWinner c (cs ++ [s]) =
      if s.count > (pickWinner c cs).count then s else pickWinner c cs := by
  simp [pickWinner, List.foldl_append]

theorem c4Core (l : List FunnelStage) (k : String) :
    (contributors l k = [] ∧ lookupC (consolidatedMap l) k = none) ∨
    ∃ c cs e, contributors l k = c :: cs ∧ lookupC (consolidatedMap l) k = some e ∧
      e.1 = k ∧ e.2.name = k ∧ e.2.count = (pickWinner c cs).count ∧
      e.2.percentage = (pickWinner c cs).percentage := by
  induction l using List.reverseRecOn with
  | nil => exact Or.inl ⟨rfl, rfl⟩
  | append_singleton t s ih =>
    rw [consolidatedMap_append, contributors_append]
    by_cases hk : resolveName s.name = k
    · subst hk
      rw [if_pos rfl]
      rcases ih with ⟨hc, hl⟩ | ⟨c, cs, e, hc, hl, he1, hen, hec, hep⟩
      · rw [hc, List.nil_append]
        exact Or.inr ⟨s, [],
          (resolveName s.name, { s with name := resolveName s.name }),
          rfl, lookupC_upsert_self_none hl, rfl, rfl, rfl, rfl⟩
      · rw [hc, List.cons_append]
        by_cases hcnt : s.count > (pickWinner c cs).count
        · refine Or.inr ⟨c, cs ++ [s],
            (resolveName s.name, { s with name := resolveName s.name }),
            rfl, lookupC_upsert_self_lt hl (by rw [hec]; exact hcnt), rfl, rfl, ?_, ?_⟩
          · rw [pickWinner_append, if_pos hcnt]
          · rw [pickWinner_append, if_pos hcnt]
        · refine Or.inr ⟨c, cs ++ [s], e,
            rfl, lookupC_upsert_self_ge hl (by rw [hec]; exact hcnt), he1, hen, ?_, ?_⟩
          · rw [pickWinner_append, if_neg hcnt]
            exact hec
          · rw [pickWinner_append, if_neg hcnt]
            exact hep
    · rw [if_neg hk, List.append_nil,
        lookupC_upsert_ne (consolidatedMap t) (fun h => hk h.symm)]
      exact ih

/-! Positional lemmas about the drop-off recomputation. -/

theorem sdf_map_proj {β : Type} (f : FunnelStage → β)
    (hf : ∀ s d, f { s with dropoff := d } = f s) :
    ∀ (prev : Int) (l : List FunnelStage), (setDropoffsFrom prev l).map f = l.map f := by
  intro prev l
  induction l generalizing prev with
  | nil => rfl
  | cons a t ih => simp [setDropoffsFrom, hf, ih]

theorem recompute_map_proj {β : Type} (f : FunnelStage → β)
    (hf : ∀ s d, f { s with dropoff := d } = f s) :
    ∀ l : List FunnelStage, (recomputeDropoffs l).map f = l.map f := by
  intro l
  cases l with
  | nil => rfl
  | cons a t => simp [recomputeDropoffs, hf, sdf_map_proj f hf]

theorem sdf_length (prev : Int) (l : List FunnelStage) :
    (setDropoffsFrom prev l).length = l.length := by
  induction l generalizing prev with
  | nil => rfl
  | cons a t ih => simp [setDropoffsFrom, ih]

theorem recompute_length (l : List FunnelStage) :
    (recomputeDropoffs l).length = l.length := by
  cases l with
  | nil => rfl
  | cons a t => simp [recomputeDropoffs, sdf_length]

/-- Relation between adjacent output stages established by the drop-off
recomputation loop. -/
def DropRel (a b : FunnelStage) : Prop := b.dropoff = some (a.count - b.count)

theorem sdf_chain (prev : Int) (l : List FunnelStage) :
    List.Chain' DropRel (setDropoffsFrom prev l) := by
  induction l generalizing prev with
  | nil => exact List.chain'_nil
  | cons a t ih =>
    rw [setDropoffsFrom, List.chain'_cons']
    refine ⟨?_, ih a.count⟩
    intro y hy
    cases t with
    | nil => simp [setDropoffsFrom] at hy
    | cons b t2 =>
      rw [setDropoffsFrom, List.head?_cons, Option.mem_some_iff] at hy
      subst hy
      rfl

theorem recompute_chain (l : List FunnelStage) :
    List.Chain' DropRel (recomputeDropoffs l) := by
  cases l with
  | nil => exact List.chain'_nil
  | cons a t =>
    rw [recomputeDropoffs, List.chain'_cons']
    refine ⟨?_, sdf_chain a.count t⟩
    intro y hy
    cases t with
    | nil => simp [setDropoffsFrom] at hy
    | cons b t2 =>
      rw [setDropoffsFrom, List.head?_cons, Option.mem_some_iff] at hy
      subst hy
      rfl

theorem sdf_mem (prev : Int) (l : List FunnelStage) (x : FunnelStage) (hx : x ∈ l) :
    ∃ t ∈ setDropoffsFrom prev l,
      t.name = x.name ∧ t.count = x.count ∧ t.percentage = x.percentage := by
  induction l generalizing prev with
  | nil => simp at hx
  | cons a rest ih =>
    rcases List.mem_cons.1 hx with h | h
    · subst h
      exact ⟨_, List.mem_cons_self _ _, rfl, rfl, rfl⟩
    · rcases ih a.count h with ⟨t, ht, hts⟩
      exact ⟨t, List.mem_cons_of_mem _ ht, hts⟩

theorem recompute_mem (l : List FunnelStage) (x : FunnelStage) (hx : x ∈ l) :
    ∃ t ∈ recomputeDropoffs l,
      t.name = x.name ∧ t.count = x.count ∧ t.percentage = x.percentage := by
  cases l with
  | nil => simp at hx
  | cons a rest =>
    rcases List.mem_cons.1 hx with h | h
    · subst h
      exact ⟨_, List.mem_cons_self _ _, rfl, rfl, rfl⟩
    · rcases sdf_mem a.count rest x h with ⟨t, ht, hts⟩
      exact ⟨t, List.mem_cons_of_mem _ ht, hts⟩

/-! Sortedness, names and length of the consolidated output. -/

theorem pairwise_percGe_recompute {X : List FunnelStage} (h : List.Pairwise percGe X) :
    List.Pairwise percGe (recomputeDropoffs X) := by
  have h1 : List.Pairwise (fun x y : ℚ => y ≤ x) (X.map (fun s => s.percentage)) :=
    List.pairwise_map.2 (h.imp (fun hab => hab))
  rw [← recompute_map_proj (fun s => s.percentage) (fun s d => rfl) X] at h1
  exact (List.pairwise_map.1 h1).imp (fun hab => hab)

theorem consolidate_pairwise (l : List FunnelStage) :
    List.Pairwise percGe (consolidateStages l) :=
  pairwise_percGe_recompute (List.sorted_insertionSort percGe _)

theorem names_values_eq_keys (l : List FunnelStage) :
    (((consolidatedMap l).map (fun p => p.2)).map (fun s => s.name)) =
      (consolidatedMap l).map (fun p => p.1) := by
  rw [List.map_map]
  exact List.map_congr_left (fun p hp => (mem_consolidatedMap hp).1)

theorem names_out_perm (l : List FunnelStage) :
    ((consolidateStages l).map (fun s => s.name)).Perm
      ((consolidatedMap l).map (fun p => p.1)) := by
  unfold consolidateStages
  rw [recompute_map_proj (fun s => s.name) (fun s d => rfl), ← names_values_eq_keys l]
  exact (List.perm_insertionSort percGe _).map _

theorem names_out_nodup (l : List FunnelStage) :
    ((consolidateStages l).map (fun s => s.name)).Nodup :=
  ((names_out_perm l).nodup_iff).2 (keys_nodup l)

theorem out_name_src {l : List FunnelStage} {n : String}
    (hn : n ∈ (consolidateStages l).map (fun s => s.name)) :
    ∃ s ∈ l, resolveName s.name = n := by
  have hk := (names_out_perm l).mem_iff.1 hn
  rcases List.mem_map.1 hk with ⟨p, hp, hp1⟩
  rcases mem_consolidatedMap hp with ⟨_, s, hs, hr, _⟩
  exact ⟨s, hs, hp1 ▸ hr⟩

theorem upsert_length_ge (acc : List (String × FunnelStage)) (s : FunnelStage) :
    acc.length ≤ (upsert acc s).length := by
  rcases hf : acc.find? (fun p => decide (p.1 = resolveName s.name)) with _ | e <;>
    simp only [upsert, hf]
  · simp
  · split
    · simp
    · exact le_refl _

theorem foldl_upsert_length_ge :
    ∀ (l : List FunnelStage) (acc : List (String × FunnelStage)),
      acc.length ≤ (l.foldl upsert acc).length := by
  intro l
  induction l with
  | nil => intro acc; exact le_refl _
  | cons a t ih =>
    intro acc
    rw [List.foldl_cons]
    exact le_trans (upsert_length_ge acc a) (ih (upsert acc a))

theorem consolidate_length_eq (l : List FunnelStage) :
    (consolidateStages l).length = (consolidatedMap l).length := by
  unfold consolidateStages sortByPercentage
  rw [recompute_length, List.length_insertionSort, List.length_map]

theorem consolidatedMap_nonempty {l : List FunnelStage} (h : l ≠ []) :
    0 < (consolidatedMap l).length := by
  cases l with
  | nil => exact absurd rfl h
  | cons a t =>
    unfold consolidatedMap
    rw [List.foldl_cons]
    refine lt_of_lt_of_le ?_ (foldl_upsert_length_ge t (upsert [] a))
    show 0 < (upsert [] a).length
    simp only [upsert, List.find?_nil]
    simp

/-! Self-resolution of output bucket names (idempotence machinery). -/

theorem out_resolve_self {l : List FunnelStage} {n : String}
    (hn : n ∈ (consolidateStages l).map (fun s => s.name)) : resolveName n = n := by
  rcases out_name_src hn with ⟨s, _, hr⟩
  rw [← hr, resolveName_idem]

theorem foldl_upsert_selfres :
    ∀ (l : List FunnelStage) (acc : List (String × FunnelStage)),
      (∀ s ∈ l, resolveName s.name = s.name) →
      (l.map (fun s => s.name)).Nodup →
      (∀ s ∈ l, ∀ p ∈ acc, p.1 ≠ s.name) →
      l.foldl upsert acc = acc ++ l.map (fun s => (s.name, s)) := by
  intro l
  induction l with
  | nil => intro acc _ _ _; simp
  | cons a t ih =>
    intro acc hres hnd hacc
    rw [List.foldl_cons]
    have hn : resolveName a.name = a.name := hres a (List.mem_cons_self a t)
    have hfind : acc.find? (fun p => decide (p.1 = resolveName a.name)) = none := by
      rw [List.find?_eq_none]
      intro p hp
      simp only [decide_eq_true_eq]
      rw [hn]
      exact hacc a (List.mem_cons_self a t) p hp
    have hup : upsert acc a = acc ++ [(a.name, a)] := by
      simp only [upsert, hfind]
      rw [hn]
    rw [hup]
    rw [List.map_cons] at hnd
    rcases List.nodup_cons.1 hnd with ⟨hand, hndt⟩
    rw [ih (acc ++ [(a.name, a)])
      (fun s hs => hres s (List.mem_cons_of_mem a hs)) hndt ?hnew]
    · simp [List.append_assoc]
    case hnew =>
      intro s hs p hp
      rcases List.mem_append.1 hp with hpa | hpa
      · exact hacc s (List.mem_cons_of_mem a hs) p hpa
      · simp only [List.mem_singleton] at hpa
        subst hpa
        intro hcontra
        have h3 : a.name = s.name := hcontra
        exact hand (by rw [h3]; exact List.mem_map_of_mem _ hs)

theorem consolidatedMap_out (l : List FunnelStage) :
    consolidatedMap (consolidateStages l) =
      (consolidateStages l).map (fun s => (s.name, s)) := by
  unfold consolidatedMap
  have h := foldl_upsert_selfres (consolidateStages l) []
    (fun s hs => out_resolve_self (List.mem_map_of_mem _ hs))
    (names_out_nodup l)
    (fun s _ p hp => absurd hp (List.not_mem_nil p))
  simpa using h

theorem names_consolidate_out_perm (l : List FunnelStage) :
    ((consolidateStages (consolidateStages l)).map (fun s => s.name)).Perm
      ((consolidateStages l).map (fun s => s.name)) := by
  have h1 := names_out_perm (consolidateStages l)
  rw [consolidatedMap_out] at h1
  simpa using h1

/-! Heap-model lemmas: the original cells are never written and all returned
addresses are fresh. -/

/-- Invariant of the bucket-reduction fold in the heap model: the original
prefix of the heap is untouched, the heap only grows, and every address held
by the accumulator points past the original heap. -/
def RefInv (h0 : Heap) (st : Heap × List (String × Nat)) : Prop :=
  (∀ i, i < h0.length → st.1[i]? = h0[i]?) ∧ h0.length ≤ st.1.length ∧
    ∀ p ∈ st.2, h0.length ≤ p.2

theorem refInv_init (h0 : Heap) : RefInv h0 (h0, []) :=
  ⟨fun _ _ => rfl, le_refl _, fun p hp => absurd hp (List.not_mem_nil p)⟩

theorem upsertRef_inv {h0 : Heap} {st : Heap × List (String × Nat)}
    (hinv : RefInv h0 st) (a : Nat) : RefInv h0 (upsertRef st a) := by
  obtain ⟨h1, h2, h3⟩ := hinv
  rcases hf : st.2.find?
      (fun p => decide (p.1 = resolveName (readH st.1 a).name)) with _ | e <;>
    simp only [upsertRef, hf, allocH]
  · refine ⟨?_, ?_, ?_⟩
    · intro i hi
      rw [List.getElem?_append_left (lt_of_lt_of_le hi h2)]
      exact h1 i hi
    · rw [List.length_append]
      exact le_trans h2 (Nat.le_add_right _ _)
    · intro p hp
      rcases List.mem_append.1 hp with hpa | hpa
      · exact h3 p hpa
      · simp only [List.mem_singleton] at hpa
        subst hpa
        exact h2
  · split
    · refine ⟨?_, ?_, ?_⟩
      · intro i hi
        rw [List.getElem?_append_left (lt_of_lt_of_le hi h2)]
        exact h1 i hi
      · rw [List.length_append]
        exact le_trans h2 (Nat.le_add_right _ _)
      · intro p hp
        rcases List.mem_map.1 hp with ⟨q, hq, hfq⟩
        by_cases hq1 : q.1 = resolveName (readH st.1 a).name
        · rw [if_pos hq1] at hfq
          subst hfq
          exact h2
        · rw [if_neg hq1] at hfq
          subst hfq
          exact h3 q hq
    · exact ⟨h1, h2, h3⟩

theorem foldl_upsertRef_inv (h0 : Heap) :
    ∀ (input : List Nat) (st : Heap × List (String × Nat)),
      RefInv h0 st → RefInv h0 (input.foldl upsertRef st) := by
  intro input
  induction input with
  | nil => intro st h; exact h
  | cons a t ih =>
    intro st h
    rw [List.foldl_cons]
    exact ih (upsertRef st a) (upsertRef_inv h a)

theorem sdrf_pres (n0 : Nat) :
    ∀ (addrs : List Nat) (h : Heap) (prevAddr : Nat),
      (∀ a ∈ addrs, n0 ≤ a) →
      ∀ i, i < n0 → (setDropoffsRefFrom h prevAddr addrs)[i]? = h[i]? := by
  intro addrs
  induction addrs with
  | nil => intro h prevAddr _ i _; rfl
  | cons a t ih =>
    intro h prevAddr hb i hi
    simp only [setDropoffsRefFrom]
    rw [ih _ _ (fun b hbm => hb b (List.mem_cons_of_mem a hbm)) i hi]
    exact List.getElem?_set_ne
      (Nat.ne_of_gt (lt_of_lt_of_le hi (hb a (List.mem_cons_self a t))))

theorem sdr_pres (n0 : Nat) (addrs : List Nat) (h : Heap)
    (hb : ∀ a ∈ addrs, n0 ≤ a) :
    ∀ i, i < n0 → (setDropoffsRef h addrs)[i]? = h[i]? := by
  cases addrs with
  | nil => intro i _; rfl
  | cons a0 rest =>
    intro i hi
    simp only [setDropoffsRef]
    rw [sdrf_pres n0 rest _ a0 (fun b hbm => hb b (List.mem_cons_of_mem a0 hbm)) i hi]
    exact List.getElem?_set_ne
      (Nat.ne_of_gt (lt_of_lt_of_le hi (hb a0 (List.mem_cons_self a0 rest))))

/-! Division-guard lemmas for the supplementary display computations. -/

theorem conversionRate_isSome (l : List FunnelStage) (cur : FunnelStage) (i : Int)
    (h : i < 0 ∨ i.toNat < l.length) :
    (getStageConversionRate l cur i).isSome = true := by
  by_cases hi : i < 0
  · simp only [getStageConversionRate, if_pos hi]
    rfl
  · have hlen : i.toNat < l.length := h.resolve_left hi
    have hsome := List.getElem?_eq_getElem hlen
    simp only [getStageConversionRate, if_neg hi, hsome]
    by_cases hc : l[i.toNat].count > 0
    · rw [if_pos hc]
      unfold cdiv
      rw [if_neg (by exact_mod_cast ne_of_gt hc)]
      rfl
    · rw [if_neg hc]
      rfl

theorem dropoffRate_isSome (s : FunnelStage) : (dropoffRate s).isSome = true := by
  simp only [dropoffRate]
  by_cases hc : s.count > 0
  · rw [if_pos hc]
    unfold cdiv
    rw [if_neg (by exact_mod_cast ne_of_gt hc)]
    rfl
  · rw [if_neg hc]
    rfl

theorem stageChange_isSome {prevList : List FunnelStage} {cur previous : FunnelStage}
    (hf : prevList.find? (fun s => decide (s.name = cur.name)) = some previous)
    (hc : previous.count ≠ 0) :
    (getStageChange (some prevList) cur).isSome = true := by
  simp only [getStageChange, hf]
  unfold cdiv
  rw [if_neg (by exact_mod_cast hc)]
  rfl

/-! Agreement of the code's matching with the spec's procedure. -/

theorem lookup_eq_find (n : String) :
    ∀ l : List (String × String),
      l.lookup n = (l.find? (fun p => decide (p.1 = n))).map (fun p => p.2) := by
  intro l
  induction l with
  | nil => rfl
  | cons p t ih =>
    rcases p with ⟨k, v⟩
    by_cases h : k = n
    · subst h
      have hb : (k == k) = true := beq_self_eq_true k
      simp [List.lookup, hb]
    · have hb : (n == k) = false := beq_eq_false_iff_ne.2 (fun h2 => h h2.symm)
      have hd : (decide (k = n)) = false := by simp [h]
      simp [List.lookup, hb, hd, ih]

theorem resolveName_eq_spec (n : String) : resolveName n = resolveNameSpec n := by
  have hff := find?_eq_head_filter
    (fun q : String × String => jsIncludes n q.1 || jsIncludes q.1 n) stageMapping
  unfold resolveName mappedName resolveNameSpec lookupExact lookupFuzzy
  rw [lookup_eq_find n stageMapping]
  rcases he : stageMapping.find? (fun p => decide (p.1 = n)) with _ | p
  · rcases hz : (stageMapping.filter
        (fun q => jsIncludes n q.1 || jsIncludes q.1 n)).head? with _ | q
    · rw [hz] at hff
      simp [he, hff, hz]
    · rw [hz] at hff
      simp [he, hff, hz]
  · simp [he]

theorem recompute_head (l : List FunnelStage) (h : 0 < (recomputeDropoffs l).length) :
    ((recomputeDropoffs l).get ⟨0, h⟩).dropoff = some 0 := by
  cases l with
  | nil => simp [recomputeDropoffs] at h
  | cons a t => rfl

theorem chain_get {l : List FunnelStage} (hc : List.Chain' DropRel l) (i : Nat)
    (h : i + 1 < l.length) :
    (l.get ⟨i + 1, h⟩).dropoff =
      some ((l.get ⟨i, Nat.lt_of_succ_lt h⟩).count - (l.get ⟨i + 1, h⟩).count) :=
  List.chain'_iff_get.1 hc i (by omega)

/-! The claims. -/

/-- Claim C1, counterexample. The claim states that every supplementary
display computation reading the aggregator's output is guarded against
division by zero. `getStageChange` is not: for the consolidated current
snapshot of a "Button Clicks" stage with count 5 and a previous consolidated
snapshot whose matching "Button Clicks" stage has count 0, the expression
`((current.count - previous.count) / previous.count) * 100` divides by the
zero count (observable here as the `none` result of the checked division). -/
theorem claim_C1_counterexample :
    consolidateStages [⟨"Button Clicks", 0, 100, none⟩] =
      [⟨"Button Clicks", 0, 100, some 0⟩] ∧
    consolidateStages [⟨"Button Clicks", 5, 100, none⟩] =
      [⟨"Button Clicks", 5, 100, some 0⟩] ∧
    getStageChange (some (consolidateStages [⟨"Button Clicks", 0, 100, none⟩]))
      ⟨"Button Clicks", 5, 100, some 0⟩ = none := by
  refine ⟨by decide, by decide, by decide⟩

/-- Claim C1, amended. The stage-to-stage conversion rate and the drop-off
rate are guarded against division by zero (their zero-denominator branches
are explicitly handled, returning 0), but the period-over-period change is
guarded only by the hypothesis that the previous stage matched by canonical
name has a nonzero count; when the matched previous count is zero it divides
by zero. -/
theorem claim_C1_amended :
    (∀ (l : List FunnelStage) (cur : FunnelStage) (i : Int),
        i < 0 ∨ i.toNat < l.length → (getStageConversionRate l cur i).isSome = true) ∧
    (∀ s : FunnelStage, (dropoffRate s).isSome = true) ∧
    (∀ (prevList : List FunnelStage) (cur previous : FunnelStage),
        prevList.find? (fun s => decide (s.name = cur.name)) = some previous →
        previous.count ≠ 0 → (getStageChange (some prevList) cur).isSome = true) ∧
    (∀ cur : FunnelStage, getStageChange none cur = some none) :=
  ⟨conversionRate_isSome, dropoffRate_isSome,
   fun _ _ _ hf hc => stageChange_isSome hf hc, fun _ => rfl⟩

/-- Claim C1, witness for the amended theorem at concrete inputs. -/
theorem claim_C1_amended_witness :
    (getStageConversionRate [⟨"A", 2, 50, none⟩] ⟨"B", 1, 25, none⟩ 0).isSome = true ∧
    (dropoffRate ⟨"A", 2, 50, some 1⟩).isSome = true ∧
    (getStageChange (some [⟨"A", 2, 50, none⟩]) ⟨"A", 4, 50, none⟩).isSome = true :=
  ⟨claim_C1_amended.1 _ _ 0 (Or.inr (by decide)),
   claim_C1_amended.2.1 _,
   claim_C1_amended.2.2.1 _ _ ⟨"A", 2, 50, none⟩ (by decide) (by decide)⟩

/-- Claim C2, counterexample. The claim states every output stage name lies
in the fixed canonical vocabulary; the unmatched raw name "Custom Step"
passes through as its own bucket, outside the vocabulary. -/
theorem claim_C2_counterexample :
    consolidateStages [⟨"Custom Step", 10, 10, none⟩] =
      [⟨"Custom Step", 10, 10, some 0⟩] ∧
    "Custom Step" ∉ canonicalVocabulary := by
  refine ⟨by decide, by decide⟩

/-- Claim C2, amended. Every stage name in the aggregator's output is either
one of the five canonical vocabulary names or the raw name of an input stage
that matched no mapping entry (pass-through); and each name appears at most
once in the output. -/
theorem claim_C2_amended (stages : List FunnelStage) :
    ((consolidateStages stages).map (fun s => s.name)).Nodup ∧
    ∀ n ∈ (consolidateStages stages).map (fun s => s.name),
      n ∈ canonicalVocabulary ∨ ∃ s ∈ stages, s.name = n ∧ mappedName n = none := by
  refine ⟨names_out_nodup stages, ?_⟩
  intro n hn
  rcases out_name_src hn with ⟨s, hs, hr⟩
  rcases resolveName_cases s.name with ⟨hm, hid⟩ | ⟨v, hm, hv, hvv⟩
  · right
    have hsn : s.name = n := by rw [← hr, hid]
    exact ⟨s, hs, hsn, hsn ▸ hm⟩
  · left
    rw [← hr, hv]
    exact hvv

/-- Claim C2, witness for the amended theorem at a concrete input. -/
theorem claim_C2_amended_witness :
    ((consolidateStages [⟨"Custom Step", 10, 10, none⟩]).map (fun s => s.name)).Nodup ∧
    ("Custom Step" ∈ canonicalVocabulary ∨
      ∃ s ∈ [(⟨"Custom Step", 10, 10, none⟩ : FunnelStage)],
        s.name = "Custom Step" ∧ mappedName "Custom Step" = none) :=
  ⟨(claim_C2_amended [⟨"Custom Step", 10, 10, none⟩]).1,
   (claim_C2_amended [⟨"Custom Step", 10, 10, none⟩]).2 "Custom Step" (by decide)⟩

/-- Claim C3. The code's name resolution agrees, for every raw name, with the
spec's three-step procedure (exact lookup in the mapping table, then
first-in-declared-order substring containment either way, then pass-through),
and the raw name "Stripe Redirect Page" resolves to the "Stripe Checkout"
bucket via the key "Stripe Redirect". -/
theorem claim_C3 :
    (∀ n : String, resolveName n = resolveNameSpec n) ∧
    resolveName "Stripe Redirect Page" = "Stripe Checkout" :=
  ⟨resolveName_eq_spec, by decide⟩

/-- Claim C4. For every canonical bucket that receives contributors, the
surviving entry of the consolidated record carries the count and percentage
of the left-to-right highest-count contributor (overwritten only on a
strictly greater count, so the first-seen contributor wins ties), and the
aggregator's output contains a stage with that bucket name, count and
percentage. -/
theorem claim_C4 (stages : List FunnelStage) (k : String) (c : FunnelStage)
    (cs : List FunnelStage) (h : contributors stages k = c :: cs) :
    ∃ e, lookupC (consolidatedMap stages) k = some e ∧ e.1 = k ∧ e.2.name = k ∧
      e.2.count = (pickWinner c cs).count ∧
      e.2.percentage = (pickWinner c cs).percentage ∧
      ∃ t ∈ consolidateStages stages, t.name = k ∧ t.count = (pickWinner c cs).count ∧
        t.percentage = (pickWinner c cs).percentage := by
  rcases c4Core stages k with ⟨hc, _⟩ | ⟨c2, cs2, e, hc, hl, he1, hen, hec, hep⟩
  · rw [h] at hc
    exact absurd hc (List.cons_ne_nil c cs)
  · have heq := h.symm.trans hc
    injection heq with h1 h2
    subst h1
    subst h2
    refine ⟨e, hl, he1, hen, hec, hep, ?_⟩
    have hmem : e.2 ∈ (consolidatedMap stages).map (fun p => p.2) :=
      List.mem_map_of_mem _ (List.mem_of_find?_eq_some hl)
    have hmem2 : e.2 ∈ sortByPercentage ((consolidatedMap stages).map (fun p => p.2)) :=
      (List.mem_insertionSort percGe).2 hmem
    rcases recompute_mem _ _ hmem2 with ⟨t, ht, htn, htc, htp⟩
    exact ⟨t, ht, by rw [htn, hen], by rw [htc, hec], by rw [htp, hep]⟩

/-- Claim C4, witness: in Scenario A both "Started" (count 80) and
"Plan Selected" (count 75) land in the "Plan Selected" bucket and the
higher-count first contributor survives. -/
theorem claim_C4_witness :
    ∃ e, lookupC (consolidatedMap sampleStages) "Plan Selected" = some e ∧
      e.1 = "Plan Selected" ∧ e.2.name = "Plan Selected" ∧
      e.2.count = (pickWinner ⟨"Started", 80, 80, none⟩
        [⟨"Plan Selected", 75, 75, none⟩]).count ∧
      e.2.percentage = (pickWinner ⟨"Started", 80, 80, none⟩
        [⟨"Plan Selected", 75, 75, none⟩]).percentage ∧
      ∃ t ∈ consolidateStages sampleStages, t.name = "Plan Selected" ∧
        t.count = (pickWinner ⟨"Started", 80, 80, none⟩
          [⟨"Plan Selected", 75, 75, none⟩]).count ∧
        t.percentage = (pickWinner ⟨"Started", 80, 80, none⟩
          [⟨"Plan Selected", 75, 75, none⟩]).percentage :=
  claim_C4 sampleStages "Plan Selected" _ _ (by decide)

/-- Claim C5. Whenever the aggregator's output is non-empty its first stage
has dropoff 0, and every later stage's dropoff is the previous output
stage's count minus its own count (as an integer, never clamped). -/
theorem claim_C5 (stages : List FunnelStage) :
    (∀ h : 0 < (consolidateStages stages).length,
      ((consolidateStages stages).get ⟨0, h⟩).dropoff = some 0) ∧
    ∀ (i : Nat) (h : i + 1 < (consolidateStages stages).length),
      ((consolidateStages stages).get ⟨i + 1, h⟩).dropoff =
        some (((consolidateStages stages).get ⟨i, Nat.lt_of_succ_lt h⟩).count -
          ((consolidateStages stages).get ⟨i + 1, h⟩).count) :=
  ⟨fun h => recompute_head _ h, fun i h => chain_get (recompute_chain _) i h⟩

/-- Claim C5, witness at the Scenario A input (output counts 100, 80, 40). -/
theorem claim_C5_witness :
    ((consolidateStages sampleStages).get ⟨0, by decide⟩).dropoff = some 0 ∧
    ((consolidateStages sampleStages).get ⟨1, by decide⟩).dropoff = some 20 :=
  ⟨(claim_C5 sampleStages).1 (by decide),
   ((claim_C5 sampleStages).2 0 (by decide)).trans (by decide)⟩

/-- Claim C6. The aggregator's output is sorted by percentage in
non-increasing order: every adjacent pair satisfies
`later.percentage ≤ earlier.percentage`. -/
theorem claim_C6 (stages : List FunnelStage) (i : Nat)
    (h : i + 1 < (consolidateStages stages).length) :
    ((consolidateStages stages).get ⟨i + 1, h⟩).percentage ≤
      ((consolidateStages stages).get ⟨i, Nat.lt_of_succ_lt h⟩).percentage :=
  List.pairwise_iff_get.1 (consolidate_pairwise stages)
    ⟨i, Nat.lt_of_succ_lt h⟩ ⟨i + 1, h⟩ (by exact Nat.lt_succ_self i)

/-- Claim C6, witness at the Scenario A input. -/
theorem claim_C6_witness :
    ((consolidateStages sampleStages).get ⟨1, by decide⟩).percentage ≤
      ((consolidateStages sampleStages).get ⟨0, by decide⟩).percentage :=
  claim_C6 sampleStages 0 (by decide)

/-- Claim C7. Every bucket name in the aggregator's output resolves to itself
under the matching procedure, so re-running the aggregator on its own output
yields the same set of bucket names. -/
theorem claim_C7 (stages : List FunnelStage) :
    (∀ n ∈ (consolidateStages stages).map (fun s => s.name), resolveName n = n) ∧
    ∀ n : String,
      (n ∈ (consolidateStages (consolidateStages stages)).map (fun s => s.name) ↔
        n ∈ (consolidateStages stages).map (fun s => s.name)) :=
  ⟨fun _ hn => out_resolve_self hn,
   fun _ => (names_consolidate_out_perm stages).mem_iff⟩

/-- Claim C7, witness at the Scenario A input. -/
theorem claim_C7_witness :
    resolveName "Plan Selected" = "Plan Selected" ∧
    ("Plan Selected" ∈
        (consolidateStages (consolidateStages sampleStages)).map (fun s => s.name) ↔
      "Plan Selected" ∈ (consolidateStages sampleStages).map (fun s => s.name)) :=
  ⟨(claim_C7 sampleStages).1 "Plan Selected" (by decide),
   (claim_C7 sampleStages).2 "Plan Selected"⟩

/-- Claim C8. In the heap model, the aggregator never writes to any cell of
the caller's heap (every original record, in particular every input stage
record, is unchanged), and every address it returns is a freshly allocated
record beyond the original heap. -/
theorem claim_C8 (h : Heap) (input : List Nat) :
    (∀ i, i < h.length → (consolidateStagesRef h input).1[i]? = h[i]?) ∧
    ∀ a ∈ (consolidateStagesRef h input).2, h.length ≤ a := by
  obtain ⟨h1, h2, h3⟩ := foldl_upsertRef_inv h input (h, []) (refInv_init h)
  have hb : ∀ a ∈ List.insertionSort (addrPercGe (input.foldl upsertRef (h, [])).1)
      ((input.foldl upsertRef (h, [])).2.map (fun p => p.2)), h.length ≤ a := by
    intro a ha
    rcases List.mem_map.1 ((List.mem_insertionSort _).1 ha) with ⟨p, hp, hpa⟩
    exact hpa ▸ h3 p hp
  constructor
  · intro i hi
    simp only [consolidateStagesRef]
    rw [sdr_pres h.length _ _ hb i hi]
    exact h1 i hi
  · intro a ha
    simp only [consolidateStagesRef] at ha
    exact hb a ha

/-- Claim C8, witness: a one-cell heap whose only record is consolidated; the
original cell is unchanged and the returned address is fresh. -/
theorem claim_C8_witness :
    (consolidateStagesRef [⟨"X", 1, 50, none⟩] [0]).1[0]? = some ⟨"X", 1, 50, none⟩ ∧
    (1 : Nat) ≤ 1 :=
  ⟨((claim_C8 [⟨"X", 1, 50, none⟩] [0]).1 0 (by decide)).trans (by decide),
   (claim_C8 [⟨"X", 1, 50, none⟩] [0]).2 1 (by decide)⟩

/-- Claim C9. For every non-empty input list the aggregator's output is
non-empty, which is what lets the widget read the first and last consolidated
stages after only checking that the raw stages prop is non-empty. -/
theorem claim_C9 (stages : List FunnelStage) (h : stages ≠ []) :
    consolidateStages stages ≠ [] := by
  intro hempty
  have hlen := consolidate_length_eq stages
  rw [hempty] at hlen
  have hpos := consolidatedMap_nonempty h
  simp at hlen
  omega

/-- Claim C9, witness at a singleton input. -/
theorem claim_C9_witness : consolidateStages [⟨"A", 1, 100, none⟩] ≠ [] :=
  claim_C9 _ (by decide)

/-- Claim C10. An input stage named by the empty string does not create a
pass-through bucket: the exact lookup fails, the substring scan accepts the
first mapping key "Button Clicks" (every key contains the empty string), and
the stage lands in the canonical "Button Clicks" bucket. -/
theorem claim_C10 :
    lookupExact "" = none ∧
    lookupFuzzy "" = some "Button Clicks" ∧
    resolveName "" = "Button Clicks" ∧
    consolidateStages [⟨"", 7, 100, none⟩] = [⟨"Button Clicks", 7, 100, some 0⟩] := by
  refine ⟨by decide, by decide, by decide, by decide⟩

end FunnelSpec
